import Mathlib

/-!
# Verification of the clang-tidy wrapper (ci/docker/runtime-files/clang-tidy-wrapper.py)

A shallow embedding of the parallel static-analysis task runner: entry
loading/filtering/deduplication (lines 76-89), the three-level sort
(line 93), the worker pool with sentinel-terminated queue (lines 39-48,
98-114), result aggregation and reporting (lines 117-137).

Strings are Python `str`; all string operations are modelled over the
underlying character list so that every definition evaluates by kernel
reduction.  Durations and wall-clock times (Python floats) are modelled
as rationals.
-/

/-- Characterwise lexicographic `≤` on character lists, comparing code
points, as Python compares strings. -/
def lexLe : List Char → List Char → Bool
  | [], _ => true
  | _ :: _, [] => false
  | x :: xs, y :: ys =>
    if x.toNat < y.toNat then true
    else if y.toNat < x.toNat then false
    else lexLe xs ys

/-- Python string `<=` (code-point lexicographic). -/
def strLe (a b : String) : Bool :=
  lexLe a.data b.data

/-- Python `str.lower()` restricted to ASCII letters, the case used by the
wrapper's filename filters. -/
def strLower (s : String) : String :=
  ⟨s.data.map Char.toLower⟩

/-- Python `s.startswith(pre)`. -/
def strStartsWith (s pre : String) : Bool :=
  pre.data.isPrefixOf s.data

/-- Python `s.endswith(suf)`. -/
def strEndsWith (s suf : String) : Bool :=
  suf.data.isSuffixOf s.data

/-- Substring occurrence on character lists: `pat` occurs somewhere in `s`. -/
def listSearch (pat s : List Char) : Bool :=
  s.tails.any fun t => pat.isPrefixOf t

/-- Python `sub in s` for strings: substring containment. -/
def strContains (s sub : String) : Bool :=
  listSearch sub.data s.data

/-- Python `re.search(pat, s)` for regex-metacharacter-free patterns, the
only regex feature the wrapper's own configuration exercises: such a
pattern matches iff it occurs in `s` as a literal substring, and the
result is truthy iff there is a match. -/
def reSearchLit (pat s : String) : Bool :=
  listSearch pat.data s.data

/-- Strip trailing `'/'` characters, as `pathlib.Path` normalisation does
to a trailing slash of a path segment. -/
def dropTrailingSlash (p : String) : String :=
  ⟨(p.data.reverse.dropWhile (· == '/')).reverse⟩

/-- Python `str(Path(root) / p)` for a relative segment `p` and a root
without trailing slash: join with `'/'`, dropping `p`'s trailing slash. -/
def pathJoin (root p : String) : String :=
  ⟨root.data ++ '/' :: (dropTrailingSlash p).data⟩

/-- Python `Path(p).relative_to(root)` for a path strictly below `root`:
`some` of the remainder after `root ++ "/"`, and `none` (modelling the
`ValueError` the call raises) when `p` does not lie under `root`. -/
def relTo (root p : String) : Option String :=
  if strStartsWith p (root ++ "/") then some ⟨p.data.drop (root.data.length + 1)⟩
  else none

/-- One record of `compile_commands.json`: the `file` field (absolute
path) used for dispatch, plus the remaining build metadata, which the
wrapper carries along but never inspects. -/
structure Entry where
  file : String
  command : String
deriving DecidableEq, Repr

/-- Line 77: `rel_includes = []`. -/
def rel_includes : List String := []

/-- Line 78: `rel_excludes = ['external/']`. -/
def rel_excludes : List String := ["external/"]

/-- Line 82's predicate: an entry is kept iff (its absolute path starts
with `root / p` for some include `p`, or starts with `root / p` for no
exclude `p`) and its absolute path does not end in `.pb.cc`. -/
def keepEntry (sdkroot : String) (includes excludes : List String) (e : Entry) : Bool :=
  (includes.any (fun p => strStartsWith e.file (pathJoin sdkroot p)) ||
    !(excludes.any fun p => strStartsWith e.file (pathJoin sdkroot p))) &&
  !(strEndsWith e.file ".pb.cc")

/-- Lines 80-83: keep the entries passing `keepEntry`. -/
def stage1Filter (sdkroot : String) (includes excludes : List String)
    (entries : List Entry) : List Entry :=
  entries.filter (keepEntry sdkroot includes excludes)

/-- Line 86's predicate: `re.search(args.filter.lower(), e['file'].lower())`,
the user filter matched against the lowercased absolute path. -/
def userMatch (filt : String) (e : Entry) : Bool :=
  reSearchLit (strLower filt) (strLower e.file)

/-- Lines 85-86: when a user filter is given, keep the entries whose
lowercased absolute path matches the lowercased filter. -/
def applyUserFilter (filt : Option String) (entries : List Entry) : List Entry :=
  match filt with
  | none => entries
  | some f => entries.filter (userMatch f)

/-- Lines 76-86 combined: the hard-coded include/exclude prefix filter
followed by the optional user filter. -/
def filterPhase (sdkroot : String) (filt : Option String) (entries : List Entry) : List Entry :=
  applyUserFilter filt (stage1Filter sdkroot rel_includes rel_excludes entries)

/-- One step of Python dict construction `{e['file'] : e for e in l}`:
inserting an entry whose key is already present overwrites the stored
value in place (keys keep first-insertion order), otherwise the new pair
is appended. -/
def dictInsert (d : List Entry) (e : Entry) : List Entry :=
  if d.any (fun x => x.file == e.file) then
    d.map fun x => if x.file == e.file then e else x
  else
    d ++ [e]

/-- Line 89: `{e['file'] : e for e in filtered_entries}.values()` —
deduplicate by absolute path, last-seen value winning. -/
def dedupEntries (entries : List Entry) : List Entry :=
  entries.foldl dictInsert []

/-- Lines 76-89: the deduplicated, filtered work set. -/
def workSet (sdkroot : String) (filt : Option String) (entries : List Entry) : List Entry :=
  dedupEntries (filterPhase sdkroot filt entries)

example : strLower "AbC/x.CC" = "abc/x.cc" := by decide

example : pathJoin "/r" "external/" = "/r/external" := by decide

example : filterPhase "/r" none
    [⟨"/r/external/e.cc", "c1"⟩, ⟨"/r/a.pb.cc", "c2"⟩, ⟨"/r/b.cc", "c3"⟩] =
    [⟨"/r/b.cc", "c3"⟩] := by decide

example : dedupEntries [⟨"/r/a.cc", "c1"⟩, ⟨"/r/b.cc", "c2"⟩, ⟨"/r/a.cc", "c3"⟩] =
    [⟨"/r/a.cc", "c3"⟩, ⟨"/r/b.cc", "c2"⟩] := by decide

/-- Line 93's primary key component: `'/test/' not in e['file']` —
`false` for test-folder entries, which therefore sort first. -/
def tierOf (e : Entry) : Bool :=
  !(strContains e.file "/test/")

/-- Line 93's sort key, compared as Python compares the tuple
`('/test/' not in file, -size, file)`: tier first (`False < True`), then
file size descending, then absolute path ascending. The `ℕ` component is
the entry's file size as returned by `stat`. -/
def keyLeB (a b : Entry × ℕ) : Bool :=
  (!(tierOf a.1) && tierOf b.1) ||
  ((tierOf a.1 == tierOf b.1) &&
    (decide (b.2 < a.2) || (a.2 == b.2 && strLe a.1.file b.1.file)))

/-- `keyLeB` as a relation, for sorting. -/
def keyLE (a b : Entry × ℕ) : Prop :=
  keyLeB a b = true

instance : DecidableRel keyLE := fun a b => instDecidableEqBool (keyLeB a b) true

/-- `Path(e['file']).stat().st_size` for every entry, in list order, over
an abstract filesystem `fs` mapping a path to the size of the file at it
(`none` when no readable file exists there): the first missing file is a
`FileNotFoundError`, modelled as `.error` of its path.  Python's `sorted`
evaluates `key` on every element before comparing, so the lookup happens
for all entries before any ordering is produced. -/
def statAll (fs : String → Option ℕ) : List Entry → Except String (List (Entry × ℕ))
  | [] => .ok []
  | e :: rest =>
    match fs e.file with
    | none => .error e.file
    | some sz => (statAll fs rest).map fun l => (e, sz) :: l

/-- Line 93: `sorted(filtered_entries, key=...)` — query every file size,
then sort by the three-level key.  The key with path tiebreaker is a
total order on entries with distinct paths, so the stable sort's output
is the unique `keyLE`-sorted permutation; `insertionSort` (stable, like
Python's sort) computes it. -/
def sortPhase (fs : String → Option ℕ) (entries : List Entry) : Except String (List Entry) :=
  (statAll fs entries).map fun l => (l.insertionSort keyLE).map fun p => p.1

/-- Line 129's computation
`((total_runtime / args.threads) / wallclock_runtime) * 100`, written as
the fallible operation it is in Python: float division raises
`ZeroDivisionError` (here `none`) when the divisor is zero, and the code
guards neither the thread count nor the wall-clock duration. -/
def cpuUsage (total : ℚ) (threads : ℕ) (wall : ℚ) : Option ℚ :=
  if threads = 0 then none
  else if wall = 0 then none
  else some (total / (threads : ℚ) / wall * 100)

/-- The ways a run aborts with an uncaught exception before printing the
final status: `statFail f` is the `FileNotFoundError` raised at line 93
when `stat` fails for file `f`; `zeroDivFail` is the `ZeroDivisionError`
raised at line 129. -/
inductive RunError where
  | statFail (file : String)
  | zeroDivFail
deriving DecidableEq, Repr

/-- What a completed run printed and returned (lines 96-137): the
remaining-entry count, the per-entry results `(file, duration,
errorCount)` in work-set order, the aggregates, the final status line
and the process exit status. -/
structure Report where
  filteredCount : ℕ
  results : List (String × ℚ × ℕ)
  errors : ℕ
  totalRuntime : ℚ
  cpu : ℚ
  statusLine : String
  exitCode : ℕ
deriving Repr

/-- The whole run after loading (lines 76-137), with the external world
abstracted: `fs` is the filesystem size query backing `stat`, `toolExit`
the clang-tidy exit status per file, `dur` the measured per-entry wall
time, `wall` the run's wall-clock duration, `threads` the worker count.
Workers are modelled by their aggregate effect — each work-set entry
processed exactly once (established separately by `pool_claims_exactly`
for the thread pool of lines 39-48/98-114) and its result recorded; sums
are order-independent, so collection order does not matter.  Per line 47
(`run_clang_tidy`), an entry's error count is `1` when the tool exited
nonzero, else `0`. -/
def runMain (sdkroot : String) (filt : Option String) (threads : ℕ)
    (fs : String → Option ℕ) (toolExit : String → ℕ) (dur : String → ℚ)
    (wall : ℚ) (entries : List Entry) : Except RunError Report :=
  let ws := workSet sdkroot filt entries
  match sortPhase fs ws with
  | .error f => .error (.statFail f)
  | .ok sorted =>
    let results := sorted.map fun e =>
      (e.file, dur e.file, if toolExit e.file ≠ 0 then 1 else 0)
    let errors := (results.map fun r => r.2.2).sum
    let total := (results.map fun r => r.2.1).sum
    match cpuUsage total threads wall with
    | none => .error .zeroDivFail
    | some c =>
      .ok { filteredCount := sorted.length
            results := results
            errors := errors
            totalRuntime := total
            cpu := c
            statusLine :=
              if errors == 0 then "Done without error"
              else "Done with errors in " ++ toString errors ++ "/" ++
                toString sorted.length ++ " files"
            exitCode := if errors == 0 then 0 else 1 }

/-- The files a completed run processed, in order (`none` when the run
aborted). -/
def runFiles : Except RunError Report → Option (List String)
  | .ok r => some (r.results.map fun x => x.1)
  | .error _ => none

/-- A completed run's status line and exit status (`none` when the run
aborted). -/
def runStatus : Except RunError Report → Option (String × ℕ)
  | .ok r => some (r.statusLine, r.exitCode)
  | .error _ => none

/-- Lines 121-127, the part that can fail: the timing report computes
`Path(fname).relative_to(sdkroot)` for each reported entry, raising
`ValueError` (`none`) as soon as a file does not lie under the root. -/
def timingRelPaths (sdkroot : String) (results : List (String × ℚ × ℕ)) :
    Option (List String) :=
  match results with
  | [] => some []
  | r :: rest =>
    match relTo sdkroot r.1 with
    | none => none
    | some rel => (timingRelPaths sdkroot rest).map fun l => rel :: l

example : sortPhase (fun f => if f = "/r/b.cc" then some 10 else some 5)
    [⟨"/r/b.cc", "c1"⟩, ⟨"/r/test/c.cc", "c2"⟩] =
    .ok [⟨"/r/test/c.cc", "c2"⟩, ⟨"/r/b.cc", "c1"⟩] := rfl

example : runStatus (runMain "/r" none 2 (fun _ => some 5) (fun _ => 0)
    (fun _ => 0) 1 [⟨"/r/b.cc", "c1"⟩, ⟨"/r/test/c.cc", "c2"⟩]) =
    some ("Done without error", 0) := by decide

/-- The private state of one worker thread (lines 39-48): the entries it
has processed (each `workq.get()` that returned an entry, followed by the
`run_clang_tidy` call and the `resultq.put`), and whether it has returned
after receiving the `None` sentinel. -/
structure WorkerState where
  procd : List Entry
  done : Bool
deriving DecidableEq, Repr

/-- The shared state of the dispatch phase: the FIFO work queue (front =
next item `workq.get()` returns) and the worker threads.  `queue.Queue`
hands each item to exactly one getter, so a state transition pops exactly
one item for exactly one worker. -/
structure PoolState where
  workq : List (Option Entry)
  workers : List WorkerState
deriving DecidableEq, Repr

/-- The work queue's eventual FIFO content (lines 98-108): every work-set
entry in scheduler order, then one `None` sentinel per worker thread.
The sentinels are enqueued only as the threads start, but `queue.Queue`
is FIFO, so items are handed out in exactly this order; a worker that
outruns the producer merely blocks in `workq.get()`, which the
interleaving model renders as that worker taking no step yet. -/
def initQueue (entries : List Entry) (n : ℕ) : List (Option Entry) :=
  entries.map some ++ List.replicate n none

/-- The dispatch phase's start state: full queue, `n` idle workers. -/
def initPool (entries : List Entry) (n : ℕ) : PoolState :=
  { workq := initQueue entries n
    workers := List.replicate n ⟨[], false⟩ }

/-- One atomic scheduling step of the worker loop (lines 42-48): a
still-running worker `i` performs `workq.get()`. `queue.Queue.get` is
thread-safe, so the pop and the hand-off to worker `i` are one atomic
transition; any interleaving of workers is a chain of such steps.
Receiving an entry appends it to the worker's processed list (`claim`);
receiving the `None` sentinel makes the worker return (`retire`). -/
inductive PoolStep : PoolState → PoolState → Prop where
  | claim (s : PoolState) (i : ℕ) (w : WorkerState) (e : Entry) (rest : List (Option Entry)) :
      s.workers[i]? = some w → w.done = false → s.workq = some e :: rest →
      PoolStep s ⟨rest, s.workers.set i ⟨w.procd ++ [e], false⟩⟩
  | retire (s : PoolState) (i : ℕ) (w : WorkerState) (rest : List (Option Entry)) :
      s.workers[i]? = some w → w.done = false → s.workq = none :: rest →
      PoolStep s ⟨rest, s.workers.set i ⟨w.procd, true⟩⟩

/-- The multiset of entries processed across all workers. -/
def procMS (ws : List WorkerState) : Multiset Entry :=
  (ws.map fun w => (w.procd : Multiset Entry)).sum

/-- How many workers have retired. -/
def doneCt (ws : List WorkerState) : ℕ :=
  ws.countP fun w => w.done

/-- The multiset of real entries in a queue segment. -/
def somesMS (q : List (Option Entry)) : Multiset Entry :=
  ((q.filterMap id : List Entry) : Multiset Entry)

/-- How many sentinels a queue segment holds. -/
def nonesCt (q : List (Option Entry)) : ℕ :=
  q.countP fun x => x.isNone

theorem procMS_nil : procMS [] = 0 := rfl

theorem procMS_cons (w : WorkerState) (ws : List WorkerState) :
    procMS (w :: ws) = (w.procd : Multiset Entry) + procMS ws := by
  simp [procMS]

theorem doneCt_cons (w : WorkerState) (ws : List WorkerState) :
    doneCt (w :: ws) = (if w.done then 1 else 0) + doneCt ws := by
  simp only [doneCt, List.countP_cons]
  by_cases h : w.done <;> simp [h, Nat.add_comm]

theorem somesMS_append (a b : List (Option Entry)) :
    somesMS (a ++ b) = somesMS a + somesMS b := by
  simp [somesMS, List.filterMap_append]

theorem nonesCt_append (a b : List (Option Entry)) :
    nonesCt (a ++ b) = nonesCt a + nonesCt b := by
  simp [nonesCt, List.countP_append]

theorem procMS_set (ws : List WorkerState) (i : ℕ) (w w' : WorkerState)
    (h : ws[i]? = some w) :
    procMS (ws.set i w') + (w.procd : Multiset Entry) =
      procMS ws + (w'.procd : Multiset Entry) := by
  induction ws generalizing i with
  | nil => simp at h
  | cons x xs ih =>
    cases i with
    | zero =>
      simp only [List.getElem?_cons_zero, Option.some.injEq] at h
      subst h
      simp [List.set, procMS_cons, add_comm, add_assoc, add_left_comm]
    | succ n =>
      simp only [List.getElem?_cons_succ] at h
      have hih := ih n h
      simp only [List.set, procMS_cons]
      rw [add_assoc, add_assoc]
      exact congrArg _ hih

theorem doneCt_set (ws : List WorkerState) (i : ℕ) (w w' : WorkerState)
    (h : ws[i]? = some w) :
    doneCt (ws.set i w') + (if w.done then 1 else 0) =
      doneCt ws + (if w'.done then 1 else 0) := by
  induction ws generalizing i with
  | nil => simp at h
  | cons x xs ih =>
    cases i with
    | zero =>
      simp only [List.getElem?_cons_zero, Option.some.injEq] at h
      subst h
      simp only [List.set, doneCt_cons]
      omega
    | succ n =>
      simp only [List.getElem?_cons_succ] at h
      have hih := ih n h
      simp only [List.set, doneCt_cons]
      omega

theorem nonesCt_replicate (j : ℕ) :
    nonesCt (List.replicate j (none : Option Entry)) = j := by
  unfold nonesCt
  rw [List.countP_eq_length.mpr, List.length_replicate]
  intro a ha
  rw [List.eq_of_mem_replicate ha]
  rfl

theorem nonesCt_map_some (l : List Entry) : nonesCt (l.map some) = 0 := by
  simp [nonesCt, List.countP_map]

theorem somesMS_map_some (l : List Entry) : somesMS (l.map some) = (l : Multiset Entry) := by
  simp [somesMS]

theorem somesMS_replicate_none (j : ℕ) :
    somesMS (List.replicate j (none : Option Entry)) = 0 := by
  simp [somesMS]

/-- The dispatch-phase invariant: some prefix of the queue's eventual
content has been handed out, the entries of that prefix are exactly the
entries processed so far (counted with multiplicity across workers), and
its sentinels are exactly the workers that have retired. -/
def PoolInv (entries : List Entry) (n : ℕ) (s : PoolState) : Prop :=
  s.workers.length = n ∧
  ∃ k, k ≤ (initQueue entries n).length ∧
    s.workq = (initQueue entries n).drop k ∧
    procMS s.workers = somesMS ((initQueue entries n).take k) ∧
    doneCt s.workers = nonesCt ((initQueue entries n).take k)

theorem poolInv_init (entries : List Entry) (n : ℕ) :
    PoolInv entries n (initPool entries n) := by
  refine ⟨by simp [initPool], 0, Nat.zero_le _, by simp [initPool], ?_, ?_⟩
  · simp [initPool, procMS, List.map_replicate, List.sum_replicate, somesMS]
  · simp only [initPool, List.take_zero]
    unfold doneCt nonesCt
    simp only [List.countP_nil]
    rw [List.countP_eq_zero.mpr]
    intro a ha
    rw [List.eq_of_mem_replicate ha]
    simp

theorem poolInv_step {entries : List Entry} {n : ℕ} {s s' : PoolState}
    (hinv : PoolInv entries n s) (hstep : PoolStep s s') : PoolInv entries n s' := by
  obtain ⟨hlen, k, hk, hq, hp, hd⟩ := hinv
  cases hstep with
  | claim i w e rest hw hrun hqe =>
    have hdk : (initQueue entries n).drop k = some e :: rest := by rw [← hq, hqe]
    have hklt : k < (initQueue entries n).length := by
      by_contra hcon
      push_neg at hcon
      rw [List.drop_eq_nil_of_le hcon] at hdk
      exact List.noConfusion hdk
    rw [List.drop_eq_getElem_cons hklt] at hdk
    obtain ⟨hget, hrest⟩ : (initQueue entries n)[k] = some e ∧
        rest = (initQueue entries n).drop (k + 1) := by
      refine ⟨List.head_eq_of_cons_eq hdk, (List.tail_eq_of_cons_eq hdk).symm⟩
    have htake : (initQueue entries n).take (k + 1) =
        (initQueue entries n).take k ++ [some e] := by
      rw [List.take_succ, List.getElem?_eq_getElem hklt, hget]
      rfl
    refine ⟨by simpa using hlen, k + 1, hklt, by simpa using hrest, ?_, ?_⟩
    · have hset := procMS_set s.workers i w ⟨w.procd ++ [e], false⟩ hw
      have hnew : procMS (s.workers.set i ⟨w.procd ++ [e], false⟩) =
          procMS s.workers + ([e] : Multiset Entry) := by
        rw [show ((WorkerState.mk (w.procd ++ [e]) false).procd : Multiset Entry) =
            (w.procd : Multiset Entry) + ([e] : Multiset Entry) from
          (Multiset.coe_add w.procd [e]).symm] at hset
        have : procMS (s.workers.set i ⟨w.procd ++ [e], false⟩) + (w.procd : Multiset Entry) =
            (procMS s.workers + ([e] : Multiset Entry)) + (w.procd : Multiset Entry) := by
          rw [hset]
          abel
        exact add_right_cancel this
      rw [hnew, htake, somesMS_append, hp]
      rfl
    · have hset := doneCt_set s.workers i w ⟨w.procd ++ [e], false⟩ hw
      rw [hrun] at hset
      simp at hset
      rw [htake, nonesCt_append]
      have h0 : nonesCt [(some e : Option Entry)] = 0 := rfl
      have hgoal : doneCt (PoolState.mk rest (s.workers.set i ⟨w.procd ++ [e], false⟩)).workers
          = doneCt (s.workers.set i ⟨w.procd ++ [e], false⟩) := rfl
      rw [hgoal, hset, h0]
      omega
  | retire i w rest hw hrun hqe =>
    have hdk : (initQueue entries n).drop k = none :: rest := by rw [← hq, hqe]
    have hklt : k < (initQueue entries n).length := by
      by_contra hcon
      push_neg at hcon
      rw [List.drop_eq_nil_of_le hcon] at hdk
      exact List.noConfusion hdk
    rw [List.drop_eq_getElem_cons hklt] at hdk
    obtain ⟨hget, hrest⟩ : (initQueue entries n)[k] = none ∧
        rest = (initQueue entries n).drop (k + 1) := by
      refine ⟨List.head_eq_of_cons_eq hdk, (List.tail_eq_of_cons_eq hdk).symm⟩
    have htake : (initQueue entries n).take (k + 1) =
        (initQueue entries n).take k ++ [none] := by
      rw [List.take_succ, List.getElem?_eq_getElem hklt, hget]
      rfl
    refine ⟨by simpa using hlen, k + 1, hklt, by simpa using hrest, ?_, ?_⟩
    · have hset := procMS_set s.workers i w ⟨w.procd, true⟩ hw
      have hnew : procMS (s.workers.set i ⟨w.procd, true⟩) = procMS s.workers :=
        add_right_cancel hset
      rw [hnew, htake, somesMS_append, hp]
      have : somesMS [(none : Option Entry)] = 0 := rfl
      rw [this, add_zero]
    · have hset := doneCt_set s.workers i w ⟨w.procd, true⟩ hw
      rw [hrun] at hset
      simp at hset
      rw [htake, nonesCt_append]
      have h1 : nonesCt [(none : Option Entry)] = 1 := rfl
      have hgoal : doneCt (PoolState.mk rest (s.workers.set i ⟨w.procd, true⟩)).workers
          = doneCt (s.workers.set i ⟨w.procd, true⟩) := rfl
      rw [hgoal, hset, h1]
      omega

theorem poolInv_reach {entries : List Entry} {n : ℕ} {s : PoolState}
    (h : Relation.ReflTransGen PoolStep (initPool entries n) s) :
    PoolInv entries n s := by
  induction h with
  | refl => exact poolInv_init entries n
  | tail hab hbc ih => exact poolInv_step ih hbc

theorem poolInv_final {entries : List Entry} {n : ℕ} {s : PoolState}
    (hn : 1 ≤ n) (hinv : PoolInv entries n s)
    (hdone : ∀ w ∈ s.workers, w.done = true) :
    procMS s.workers = (entries : Multiset Entry) := by
  obtain ⟨hlen, k, hk, hq, hp, hd⟩ := hinv
  have hdc : doneCt s.workers = n := by
    unfold doneCt
    rw [List.countP_eq_length.mpr, hlen]
    intro a ha
    exact hdone a ha
  have hlen2 : (initQueue entries n).length = entries.length + n := by
    simp [initQueue]
  have hnones : nonesCt ((initQueue entries n).take k) =
      (k - entries.length) ⊓ n := by
    unfold initQueue
    rw [List.take_append_eq_append_take, nonesCt_append]
    rw [List.length_map]
    have h1 : nonesCt ((entries.map some).take k) = 0 := by
      rw [← List.map_take]
      exact nonesCt_map_some _
    rw [h1, List.take_replicate, nonesCt_replicate, Nat.zero_add]
  have hkeq : k = entries.length + n := by
    rw [hdc, hnones] at hd
    rcases Nat.le_total (k - entries.length) n with hmin | hmin
    · rw [min_eq_left hmin] at hd
      rw [hlen2] at hk
      omega
    · rw [min_eq_right hmin] at hd
      rw [hlen2] at hk
      omega
  have htakeall : (initQueue entries n).take k = initQueue entries n := by
    apply List.take_of_length_le
    rw [hlen2, hkeq]
  rw [htakeall] at hp
  rw [hp]
  unfold initQueue
  rw [somesMS_append, somesMS_map_some, somesMS_replicate_none, add_zero]

theorem procMS_eq_flatten (ws : List WorkerState) :
    procMS ws = (((ws.map fun w => w.procd).flatten : List Entry) : Multiset Entry) := by
  induction ws with
  | nil => rfl
  | cons x xs ih =>
    rw [procMS_cons, ih]
    simp only [List.map_cons, List.flatten_cons]
    rw [Multiset.coe_add]

/-- C1: for every run of the dispatch phase with `n ≥ 1` workers, once all
workers have retired, the multiset of entries processed across the
workers equals the work set exactly — each entry of the ordered work set
was claimed and executed by exactly one worker, none twice, none
skipped. -/
theorem pool_claims_exactly (entries : List Entry) (n : ℕ) (s : PoolState)
    (hn : 1 ≤ n)
    (hreach : Relation.ReflTransGen PoolStep (initPool entries n) s)
    (hdone : ∀ w ∈ s.workers, w.done = true) :
    ((s.workers.map fun w => w.procd).flatten).Perm entries ∧
    (entries.Nodup → ∀ e ∈ entries,
      ((s.workers.map fun w => w.procd).flatten).count e = 1) := by
  have hms := poolInv_final hn (poolInv_reach hreach) hdone
  rw [procMS_eq_flatten] at hms
  have hperm := Multiset.coe_eq_coe.mp hms
  refine ⟨hperm, fun hnd e he => ?_⟩
  rw [hperm.count_eq]
  exact List.count_eq_one_of_mem hnd he

/-- Witness for `pool_claims_exactly`: one worker, one entry; the worker
claims the entry, then retires on the sentinel, and the processed
multiset is exactly the work set. -/
theorem pool_claims_exactly_witness :
    (([WorkerState.mk [Entry.mk "/r/a.cc" "c"] true].map fun w => w.procd).flatten).Perm
      [Entry.mk "/r/a.cc" "c"] := by
  have h1 : PoolStep (initPool [Entry.mk "/r/a.cc" "c"] 1)
      ⟨[none], [⟨[Entry.mk "/r/a.cc" "c"], false⟩]⟩ :=
    PoolStep.claim (initPool [Entry.mk "/r/a.cc" "c"] 1) 0 ⟨[], false⟩
      (Entry.mk "/r/a.cc" "c") [none] rfl rfl rfl
  have h2 : PoolStep ⟨[none], [⟨[Entry.mk "/r/a.cc" "c"], false⟩]⟩
      ⟨[], [⟨[Entry.mk "/r/a.cc" "c"], true⟩]⟩ :=
    PoolStep.retire ⟨[none], [⟨[Entry.mk "/r/a.cc" "c"], false⟩]⟩ 0
      ⟨[Entry.mk "/r/a.cc" "c"], false⟩ [] rfl rfl rfl
  have hreach : Relation.ReflTransGen PoolStep (initPool [Entry.mk "/r/a.cc" "c"] 1)
      ⟨[], [⟨[Entry.mk "/r/a.cc" "c"], true⟩]⟩ :=
    Relation.ReflTransGen.tail (Relation.ReflTransGen.tail Relation.ReflTransGen.refl h1) h2
  exact (pool_claims_exactly [Entry.mk "/r/a.cc" "c"] 1
    ⟨[], [⟨[Entry.mk "/r/a.cc" "c"], true⟩]⟩ (by decide) hreach (by decide)).1

theorem statAll_map_fst {fs : String → Option ℕ} :
    ∀ {es : List Entry} {out : List (Entry × ℕ)},
      statAll fs es = .ok out → out.map (fun p => p.1) = es := by
  intro es
  induction es with
  | nil =>
    intro out h
    simp only [statAll] at h
    injection h with h
    subst h
    rfl
  | cons e rest ih =>
    intro out h
    simp only [statAll] at h
    cases hfs : fs e.file with
    | none =>
      rw [hfs] at h
      exact Except.noConfusion h
    | some sz =>
      rw [hfs] at h
      cases hrest : statAll fs rest with
      | error f =>
        rw [hrest] at h
        exact Except.noConfusion h
      | ok l =>
        rw [hrest] at h
        injection h with h
        subst h
        simp [ih hrest]

theorem statAll_sizes {fs : String → Option ℕ} :
    ∀ {es : List Entry} {out : List (Entry × ℕ)},
      statAll fs es = .ok out → ∀ p ∈ out, fs p.1.file = some p.2 := by
  intro es
  induction es with
  | nil =>
    intro out h p hp
    simp only [statAll] at h
    injection h with h
    subst h
    exact absurd hp (List.not_mem_nil p)
  | cons e rest ih =>
    intro out h p hp
    simp only [statAll] at h
    cases hfs : fs e.file with
    | none =>
      rw [hfs] at h
      exact Except.noConfusion h
    | some sz =>
      rw [hfs] at h
      cases hrest : statAll fs rest with
      | error f =>
        rw [hrest] at h
        exact Except.noConfusion h
      | ok l =>
        rw [hrest] at h
        injection h with h
        subst h
        rcases List.mem_cons.mp hp with hple | hpl
        · subst hple
          exact hfs
        · exact ih hrest p hpl

theorem statAll_ok_of_sizes {fs : String → Option ℕ} :
    ∀ {es : List Entry}, (∀ e ∈ es, (fs e.file).isSome = true) →
      ∃ out, statAll fs es = .ok out := by
  intro es
  induction es with
  | nil => exact fun _ => ⟨[], rfl⟩
  | cons e rest ih =>
    intro h
    have he : (fs e.file).isSome = true := h e (List.mem_cons_self e rest)
    obtain ⟨sz, hsz⟩ := Option.isSome_iff_exists.mp he
    obtain ⟨out, hout⟩ := ih fun x hx => h x (List.mem_cons_of_mem e hx)
    exact ⟨(e, sz) :: out, by simp only [statAll]; rw [hsz, hout]; rfl⟩

theorem statAll_error_of_missing {fs : String → Option ℕ} :
    ∀ {es : List Entry}, (∃ e ∈ es, fs e.file = none) →
      ∃ f, statAll fs es = .error f ∧ fs f = none := by
  intro es
  induction es with
  | nil => rintro ⟨e, he, -⟩; exact absurd he (List.not_mem_nil e)
  | cons e rest ih =>
    rintro ⟨x, hx, hxnone⟩
    cases hfs : fs e.file with
    | none => exact ⟨e.file, by simp only [statAll]; rw [hfs], hfs⟩
    | some sz =>
      rcases List.mem_cons.mp hx with hxe | hxr
      · subst hxe
        rw [hfs] at hxnone
        exact Option.noConfusion hxnone
      · obtain ⟨f, herr, hfnone⟩ := ih ⟨x, hxr, hxnone⟩
        refine ⟨f, ?_, hfnone⟩
        simp only [statAll]
        rw [hfs, herr]
        rfl

theorem lexLe_cons (x y : Char) (xs ys : List Char) :
    lexLe (x :: xs) (y :: ys) = true ↔
      x.toNat < y.toNat ∨ (x.toNat = y.toNat ∧ lexLe xs ys = true) := by
  constructor
  · intro h
    simp only [lexLe] at h
    split_ifs at h with h1 h2
    · exact Or.inl h1
    · exact Or.inr ⟨by omega, h⟩
  · intro h
    rcases h with h1 | ⟨heq, hr⟩
    · simp [lexLe, h1]
    · have h1 : ¬ x.toNat < y.toNat := by omega
      have h2 : ¬ y.toNat < x.toNat := by omega
      simp [lexLe, h1, h2, hr]

theorem lexLe_total : ∀ a b : List Char, lexLe a b = true ∨ lexLe b a = true := by
  intro a
  induction a with
  | nil => intro b; exact Or.inl rfl
  | cons x xs ih =>
    intro b
    cases b with
    | nil => exact Or.inr rfl
    | cons y ys =>
      rcases Nat.lt_trichotomy x.toNat y.toNat with h | h | h
      · exact Or.inl ((lexLe_cons x y xs ys).mpr (Or.inl h))
      · rcases ih ys with hr | hr
        · exact Or.inl ((lexLe_cons x y xs ys).mpr (Or.inr ⟨h, hr⟩))
        · exact Or.inr ((lexLe_cons y x ys xs).mpr (Or.inr ⟨h.symm, hr⟩))
      · exact Or.inr ((lexLe_cons y x ys xs).mpr (Or.inl h))

theorem lexLe_trans : ∀ a b c : List Char,
    lexLe a b = true → lexLe b c = true → lexLe a c = true := by
  intro a
  induction a with
  | nil => intro b c _ _; rfl
  | cons x xs ih =>
    intro b c hab hbc
    cases b with
    | nil => exact absurd hab (by simp [lexLe])
    | cons y ys =>
      cases c with
      | nil => exact absurd hbc (by simp [lexLe])
      | cons z zs =>
        rcases (lexLe_cons x y xs ys).mp hab with h1 | ⟨he1, hr1⟩
        · rcases (lexLe_cons y z ys zs).mp hbc with h2 | ⟨he2, hr2⟩
          · exact (lexLe_cons x z xs zs).mpr (Or.inl (by omega))
          · exact (lexLe_cons x z xs zs).mpr (Or.inl (by omega))
        · rcases (lexLe_cons y z ys zs).mp hbc with h2 | ⟨he2, hr2⟩
          · exact (lexLe_cons x z xs zs).mpr (Or.inl (by omega))
          · exact (lexLe_cons x z xs zs).mpr (Or.inr ⟨by omega, ih ys zs hr1 hr2⟩)

theorem strLe_total (a b : String) : strLe a b = true ∨ strLe b a = true :=
  lexLe_total a.data b.data

theorem strLe_trans {a b c : String} (h1 : strLe a b = true) (h2 : strLe b c = true) :
    strLe a c = true :=
  lexLe_trans a.data b.data c.data h1 h2

theorem keyLE_iff (a b : Entry × ℕ) :
    keyLE a b ↔
      (tierOf a.1 = false ∧ tierOf b.1 = true) ∨
      (tierOf a.1 = tierOf b.1 ∧
        (b.2 < a.2 ∨ (a.2 = b.2 ∧ strLe a.1.file b.1.file = true))) := by
  simp only [keyLE, keyLeB, Bool.or_eq_true, Bool.and_eq_true, Bool.not_eq_true',
    beq_iff_eq, decide_eq_true_eq]

instance : IsTrans (Entry × ℕ) keyLE := by
  constructor
  intro a b c hab hbc
  rw [keyLE_iff] at hab hbc ⊢
  rcases hab with ⟨ha1, hb1⟩ | ⟨htab, h2⟩
  · rcases hbc with ⟨hb1', hc1⟩ | ⟨htbc, h3⟩
    · exact Or.inl ⟨ha1, hc1⟩
    · exact Or.inl ⟨ha1, htbc ▸ hb1⟩
  · rcases hbc with ⟨hb1', hc1⟩ | ⟨htbc, h3⟩
    · exact Or.inl ⟨htab.trans hb1', hc1⟩
    · refine Or.inr ⟨htab.trans htbc, ?_⟩
      rcases h2 with hlt | ⟨heq, hle⟩
      · rcases h3 with hlt' | ⟨heq', hle'⟩
        · exact Or.inl (by omega)
        · exact Or.inl (by omega)
      · rcases h3 with hlt' | ⟨heq', hle'⟩
        · exact Or.inl (by omega)
        · exact Or.inr ⟨heq.trans heq', strLe_trans hle hle'⟩

instance : IsTotal (Entry × ℕ) keyLE := by
  constructor
  intro a b
  rw [keyLE_iff, keyLE_iff]
  cases hta : tierOf a.1 <;> cases htb : tierOf b.1
  · rcases Nat.lt_trichotomy b.2 a.2 with h | h | h
    · exact Or.inl (Or.inr ⟨rfl, Or.inl h⟩)
    · rcases strLe_total a.1.file b.1.file with hs | hs
      · exact Or.inl (Or.inr ⟨rfl, Or.inr ⟨h.symm, hs⟩⟩)
      · exact Or.inr (Or.inr ⟨rfl, Or.inr ⟨h, hs⟩⟩)
    · exact Or.inr (Or.inr ⟨rfl, Or.inl h⟩)
  · exact Or.inl (Or.inl ⟨rfl, rfl⟩)
  · exact Or.inr (Or.inl ⟨rfl, rfl⟩)
  · rcases Nat.lt_trichotomy b.2 a.2 with h | h | h
    · exact Or.inl (Or.inr ⟨rfl, Or.inl h⟩)
    · rcases strLe_total a.1.file b.1.file with hs | hs
      · exact Or.inl (Or.inr ⟨rfl, Or.inr ⟨h.symm, hs⟩⟩)
      · exact Or.inr (Or.inr ⟨rfl, Or.inr ⟨h, hs⟩⟩)
    · exact Or.inr (Or.inr ⟨rfl, Or.inl h⟩)

/-- The size `stat` reports for an entry's file (defaulting to `0`, used
only where the file is known to exist). -/
def entrySize (fs : String → Option ℕ) (e : Entry) : ℕ :=
  (fs e.file).getD 0

/-- C5: the scheduler orders the filtered work set by the three-level key
of line 93 — an entry of the higher-priority tier (path containing
`/test/`, i.e. `tierOf = false`) always precedes a lower-tier entry
regardless of file size; within a tier larger files come first; ties on
tier and size are broken alphabetically ascending by path — and the
output is a deterministic function of the filtered set and the file
sizes. -/
theorem sort_three_level (fs : String → Option ℕ) (es sorted : List Entry)
    (h : sortPhase fs es = .ok sorted) :
    sorted.Perm es ∧
    List.Pairwise (fun a b =>
      (tierOf a = false ∧ tierOf b = true) ∨
      (tierOf a = tierOf b ∧
        (entrySize fs b < entrySize fs a ∨
          (entrySize fs a = entrySize fs b ∧ strLe a.file b.file = true)))) sorted ∧
    ∀ sorted', sortPhase fs es = .ok sorted' → sorted' = sorted := by
  rcases hok : sortPhase fs es with f | s0
  · rw [hok] at h
    exact Except.noConfusion h
  rw [hok] at h
  injection h with h
  subst h
  unfold sortPhase at hok
  cases hst : statAll fs es with
  | error f =>
    rw [hst] at hok
    exact Except.noConfusion hok
  | ok out =>
    rw [hst] at hok
    have hform : s0 = (out.insertionSort keyLE).map fun p => p.1 := by
      have : (Except.ok out : Except String (List (Entry × ℕ))).map
          (fun l => (l.insertionSort keyLE).map fun p => p.1) =
          .ok ((out.insertionSort keyLE).map fun p => p.1) := rfl
      rw [this] at hok
      injection hok with hok
      exact hok.symm
    subst hform
    refine ⟨?_, ?_, ?_⟩
    · have hp : (out.insertionSort keyLE).Perm out := List.perm_insertionSort keyLE out
      have hmap := hp.map fun p : Entry × ℕ => p.1
      rw [statAll_map_fst hst] at hmap
      exact hmap
    · have hs : List.Pairwise keyLE (out.insertionSort keyLE) :=
        List.sorted_insertionSort keyLE out
      rw [List.pairwise_map]
      apply hs.imp_of_mem
      intro p q hpmem hqmem hpq
      have hpin : p ∈ out := ((List.perm_insertionSort keyLE out).mem_iff).mp hpmem
      have hqin : q ∈ out := ((List.perm_insertionSort keyLE out).mem_iff).mp hqmem
      have hsp : entrySize fs p.1 = p.2 := by
        rw [entrySize, statAll_sizes hst p hpin]
        rfl
      have hsq : entrySize fs q.1 = q.2 := by
        rw [entrySize, statAll_sizes hst q hqin]
        rfl
      rw [keyLE_iff] at hpq
      rw [hsp, hsq]
      exact hpq
    · intro sorted' h'
      injection h' with h'
      exact h'.symm

/-- Witness for `sort_three_level`: the concrete two-entry scenario of
§8 of the spec — the test-folder entry sorts first although the other
file is larger. -/
theorem sort_three_level_witness :
    ([Entry.mk "/r/test/c.cc" "c2", Entry.mk "/r/b.cc" "c1"]).Perm
      [Entry.mk "/r/b.cc" "c1", Entry.mk "/r/test/c.cc" "c2"] ∧
    List.Pairwise (fun a b =>
      (tierOf a = false ∧ tierOf b = true) ∨
      (tierOf a = tierOf b ∧
        (entrySize (fun f => if f = "/r/b.cc" then some 10 else some 5) b <
            entrySize (fun f => if f = "/r/b.cc" then some 10 else some 5) a ∨
          (entrySize (fun f => if f = "/r/b.cc" then some 10 else some 5) a =
              entrySize (fun f => if f = "/r/b.cc" then some 10 else some 5) b ∧
            strLe a.file b.file = true))))
      [Entry.mk "/r/test/c.cc" "c2", Entry.mk "/r/b.cc" "c1"] ∧
    ∀ sorted', sortPhase (fun f => if f = "/r/b.cc" then some 10 else some 5)
        [Entry.mk "/r/b.cc" "c1", Entry.mk "/r/test/c.cc" "c2"] = .ok sorted' →
      sorted' = [Entry.mk "/r/test/c.cc" "c2", Entry.mk "/r/b.cc" "c1"] :=
  sort_three_level (fun f => if f = "/r/b.cc" then some 10 else some 5)
    [Entry.mk "/r/b.cc" "c1", Entry.mk "/r/test/c.cc" "c2"]
    [Entry.mk "/r/test/c.cc" "c2", Entry.mk "/r/b.cc" "c1"] rfl

/-- C2 counterexample: with repository root `/home/u/repo` and user
filter `home`, the entry `/home/u/repo/a.cc` survives filtering although
its path relative to the root, `a.cc`, does not match the filter — line
86 matches the filter against the lowercased absolute path, so a match
purely via path components above the root keeps the entry. -/
theorem filter_absolute_path_cex :
    filterPhase "/home/u/repo" (some "home") [Entry.mk "/home/u/repo/a.cc" "cc"] =
      [Entry.mk "/home/u/repo/a.cc" "cc"] ∧
    relTo "/home/u/repo" "/home/u/repo/a.cc" = some "a.cc" ∧
    reSearchLit (strLower "home") (strLower "a.cc") = false := by
  refine ⟨by decide, by decide, by decide⟩

/-- C2 (amended): an entry survives filtering iff it passes the
include/exclude prefix test on its ABSOLUTE path (line 82), its absolute
path does not end in `.pb.cc`, and — when a user filter is set — the
lowercased filter matches the lowercased ABSOLUTE path; the relative
path plays no part, so matches via components above the root count. -/
theorem filter_survival_iff (sdkroot : String) (includes excludes : List String)
    (filt : Option String) (entries : List Entry) (e : Entry) :
    e ∈ applyUserFilter filt (stage1Filter sdkroot includes excludes entries) ↔
      e ∈ entries ∧ keepEntry sdkroot includes excludes e = true ∧
        (filt.all fun f => userMatch f e) = true := by
  cases filt with
  | none => simp [applyUserFilter, stage1Filter, List.mem_filter, Option.all]
  | some f =>
    simp only [applyUserFilter, stage1Filter, List.mem_filter, Option.all]
    constructor
    · rintro ⟨⟨he, hk⟩, hm⟩
      exact ⟨he, hk, hm⟩
    · rintro ⟨he, hk, hm⟩
      exact ⟨⟨he, hk⟩, hm⟩

/-- C3 counterexample: the filter `A.CC` differs from the matching part
of the path `/r/x/a.cc` only in letter case, yet it DOES match, and the
entry survives; the all-lowercase filter gives the same outcome, so a
case change in the filter does not change survival. -/
theorem filter_case_cex :
    userMatch "A.CC" (Entry.mk "/r/x/a.cc" "cc") = true ∧
    userMatch "a.cc" (Entry.mk "/r/x/a.cc" "cc") = true ∧
    applyUserFilter (some "A.CC") [Entry.mk "/r/x/a.cc" "cc"] =
      [Entry.mk "/r/x/a.cc" "cc"] := by
  refine ⟨by decide, by decide, by decide⟩

/-- C3 (amended): include-filter matching is case-INsensitive — line 86
lowercases both the filter and the path before matching, so changing
only the letter case of the filter or of the file path never changes
whether an entry survives the user filter. -/
theorem userMatch_case_insensitive (f f' : String) (e e' : Entry)
    (hf : strLower f = strLower f') (he : strLower e.file = strLower e'.file) :
    userMatch f e = userMatch f' e' := by
  unfold userMatch
  rw [hf, he]

/-- Witness for `userMatch_case_insensitive`: `A.CC` against
`/r/a.cc` matches exactly when `a.cc` against `/R/A.CC` does. -/
theorem userMatch_case_insensitive_witness :
    userMatch "A.CC" (Entry.mk "/r/a.cc" "cc") =
      userMatch "a.cc" (Entry.mk "/R/A.CC" "cc") :=
  userMatch_case_insensitive "A.CC" "a.cc" (Entry.mk "/r/a.cc" "cc")
    (Entry.mk "/R/A.CC" "cc") (by decide) (by decide)

theorem map_file_replace (d : List Entry) (a : Entry) :
    ((d.map fun x => if x.file == a.file then a else x).map fun e => e.file) =
      d.map fun e => e.file := by
  rw [List.map_map]
  apply List.map_congr_left
  intro x hx
  simp only [Function.comp_apply]
  by_cases h : (x.file == a.file) = true
  · rw [if_pos h]
    exact (eq_of_beq h).symm
  · rw [if_neg h]

theorem dictInsert_files_nodup {d : List Entry} {a : Entry}
    (h : (d.map fun e => e.file).Nodup) :
    ((dictInsert d a).map fun e => e.file).Nodup := by
  unfold dictInsert
  split_ifs with hany
  · rw [map_file_replace]
    exact h
  · rw [List.map_append, List.nodup_append]
    refine ⟨h, List.nodup_singleton _, ?_⟩
    intro x hx hxa
    rw [List.map_singleton, List.mem_singleton] at hxa
    subst hxa
    rw [List.mem_map] at hx
    obtain ⟨y, hy, hyfile⟩ := hx
    apply hany
    rw [List.any_eq_true]
    refine ⟨y, hy, ?_⟩
    simp [hyfile]

theorem dedup_files_nodup (l : List Entry) :
    ((dedupEntries l).map fun e => e.file).Nodup := by
  unfold dedupEntries
  suffices h : ∀ d : List Entry, (d.map fun e => e.file).Nodup →
      ((l.foldl dictInsert d).map fun e => e.file).Nodup from h [] (by simp)
  induction l with
  | nil => exact fun d hd => hd
  | cons x xs ih => exact fun d hd => ih _ (dictInsert_files_nodup hd)

theorem find?_cons_head (p : Entry → Bool) (x : Entry) (l : List Entry)
    (h : p x = true) : List.find? p (x :: l) = some x := by
  simp [List.find?_cons, h]

theorem find?_cons_tail (p : Entry → Bool) (x : Entry) (l : List Entry)
    (h : p x = false) : List.find? p (x :: l) = List.find? p l := by
  simp [List.find?_cons, h]

theorem find?_replace_match (D : List Entry) (a : Entry) (f : String)
    (hf : (a.file == f) = true) :
    (D.map fun x => if x.file == a.file then a else x).find? (fun e => e.file == f) =
      if (D.any fun x => x.file == a.file) = true then some a else none := by
  induction D with
  | nil => rfl
  | cons x D' ih =>
    simp only [List.map_cons, List.any_cons]
    by_cases hx : (x.file == a.file) = true
    · rw [if_pos hx, find?_cons_head (fun e => e.file == f) a _ hf]
      simp [hx]
    · rw [if_neg hx]
      have hpx : (x.file == f) = false := by
        by_contra hcon
        rw [Bool.not_eq_false] at hcon
        apply hx
        have h1 : x.file = f := eq_of_beq hcon
        have h2 : a.file = f := eq_of_beq hf
        simp [h1, h2]
      rw [find?_cons_tail (fun e => e.file == f) x _ hpx, ih]
      simp only [Bool.or_eq_true]
      by_cases hany : (D'.any fun y => y.file == a.file) = true
      · simp [hany, hx]
      · simp [hany, hx]

theorem find?_replace_nomatch (D : List Entry) (a : Entry) (f : String)
    (hf : (a.file == f) = false) :
    (D.map fun x => if x.file == a.file then a else x).find? (fun e => e.file == f) =
      D.find? (fun e => e.file == f) := by
  induction D with
  | nil => rfl
  | cons x D' ih =>
    simp only [List.map_cons]
    by_cases hx : (x.file == a.file) = true
    · rw [if_pos hx]
      have hpx : (x.file == f) = false := by
        have h1 : x.file = a.file := eq_of_beq hx
        rw [h1]
        exact hf
      rw [find?_cons_tail (fun e => e.file == f) a _ hf, ih,
        find?_cons_tail (fun e => e.file == f) x _ hpx]
    · rw [if_neg hx]
      by_cases hpx : (x.file == f) = true
      · rw [find?_cons_head (fun e => e.file == f) x _ hpx,
          find?_cons_head (fun e => e.file == f) x _ hpx]
      · have hpxf : (x.file == f) = false := by simpa using hpx
        rw [find?_cons_tail (fun e => e.file == f) x _ hpxf,
          find?_cons_tail (fun e => e.file == f) x _ hpxf, ih]

theorem dedup_append_singleton (l : List Entry) (a : Entry) :
    dedupEntries (l ++ [a]) = dictInsert (dedupEntries l) a := by
  unfold dedupEntries
  rw [List.foldl_append]
  rfl

theorem dedup_find? (l : List Entry) (f : String) :
    (dedupEntries l).find? (fun e => e.file == f) =
      l.reverse.find? (fun e => e.file == f) := by
  induction l using List.reverseRecOn with
  | nil => rfl
  | append_singleton l a ih =>
    rw [dedup_append_singleton, List.reverse_append]
    simp only [List.reverse_singleton, List.singleton_append]
    unfold dictInsert
    by_cases hpa : (a.file == f) = true
    · split_ifs with hany
      · rw [find?_replace_match _ _ _ hpa, if_pos hany,
          find?_cons_head (fun e => e.file == f) a _ hpa]
      · rw [List.find?_append]
        have hnone : (dedupEntries l).find? (fun e => e.file == f) = none := by
          rw [List.find?_eq_none]
          intro x hx hpx
          apply hany
          rw [List.any_eq_true]
          refine ⟨x, hx, ?_⟩
          have h1 : x.file = f := eq_of_beq hpx
          have h2 : a.file = f := eq_of_beq hpa
          simp [h1, h2]
        rw [hnone, find?_cons_head (fun e => e.file == f) a _ hpa,
          find?_cons_head (fun e => e.file == f) a _ hpa]
        rfl
    · have hpaf : (a.file == f) = false := by simpa using hpa
      split_ifs with hany
      · rw [find?_replace_nomatch _ _ _ hpaf, ih,
          find?_cons_tail (fun e => e.file == f) a _ hpaf]
      · rw [List.find?_append, ih]
        have h1 : List.find? (fun e => e.file == f) [a] = none := by
          rw [find?_cons_tail (fun e => e.file == f) a _ hpaf]
          rfl
        rw [h1, find?_cons_tail (fun e => e.file == f) a _ hpaf]
        exact Option.or_none

/-- C8: after filtering and deduplication the work set holds no two
entries with the same absolute file path, and the entry retained for a
path is the last surviving record with that path (line 89's dict
comprehension overwrites, so last-seen wins). -/
theorem dedup_exactly_one (sdkroot : String) (filt : Option String) (entries : List Entry) :
    ((workSet sdkroot filt entries).map fun e => e.file).Nodup ∧
    ∀ f, (workSet sdkroot filt entries).find? (fun e => e.file == f) =
      (filterPhase sdkroot filt entries).reverse.find? (fun e => e.file == f) :=
  ⟨dedup_files_nodup _, fun f => dedup_find? _ f⟩

theorem mem_dictInsert {d : List Entry} {x e : Entry} (h : e ∈ dictInsert d x) :
    e ∈ d ∨ e = x := by
  unfold dictInsert at h
  split_ifs at h with hany
  · rw [List.mem_map] at h
    obtain ⟨y, hy, hrep⟩ := h
    by_cases hyx : (y.file == x.file) = true
    · rw [if_pos hyx] at hrep
      exact Or.inr hrep.symm
    · rw [if_neg hyx] at hrep
      exact Or.inl (hrep ▸ hy)
  · rw [List.mem_append, List.mem_singleton] at h
    exact h

theorem mem_dedup {l : List Entry} {e : Entry} (h : e ∈ dedupEntries l) : e ∈ l := by
  unfold dedupEntries at h
  suffices hgen : ∀ d : List Entry, e ∈ l.foldl dictInsert d → e ∈ d ∨ e ∈ l by
    exact (hgen [] h).resolve_left (List.not_mem_nil e)
  clear h
  induction l with
  | nil => exact fun d hd => Or.inl hd
  | cons x xs ih =>
    intro d hd
    rw [List.foldl_cons] at hd
    rcases ih (dictInsert d x) hd with hmem | hmem
    · rcases mem_dictInsert hmem with h1 | h1
      · exact Or.inl h1
      · exact Or.inr (h1 ▸ List.mem_cons_self x xs)
    · exact Or.inr (List.mem_cons_of_mem x hmem)

theorem mem_applyUserFilter {filt : Option String} {l : List Entry} {e : Entry}
    (h : e ∈ applyUserFilter filt l) : e ∈ l := by
  cases filt with
  | none => exact h
  | some f => exact (List.mem_filter.mp h).1

theorem keep_no_pbcc {sdkroot : String} {includes excludes : List String} {e : Entry}
    (h : keepEntry sdkroot includes excludes e = true) :
    strEndsWith e.file ".pb.cc" = false := by
  unfold keepEntry at h
  rw [Bool.and_eq_true] at h
  have h2 := h.2
  rwa [Bool.not_eq_true'] at h2

theorem sortPhase_perm {fs : String → Option ℕ} {es sorted : List Entry}
    (h : sortPhase fs es = .ok sorted) : sorted.Perm es := by
  unfold sortPhase at h
  cases hst : statAll fs es with
  | error f =>
    rw [hst] at h
    exact Except.noConfusion h
  | ok out =>
    rw [hst] at h
    have heq : (Except.ok out : Except String (List (Entry × ℕ))).map
        (fun l => (l.insertionSort keyLE).map fun p => p.1) =
        .ok ((out.insertionSort keyLE).map fun p => p.1) := rfl
    rw [heq] at h
    injection h with h
    subst h
    have hp := (List.perm_insertionSort keyLE out).map fun p : Entry × ℕ => p.1
    rw [statAll_map_fst hst] at hp
    exact hp

theorem sortPhase_ok_of_sizes {fs : String → Option ℕ} {es : List Entry}
    (h : ∀ e ∈ es, (fs e.file).isSome = true) :
    ∃ sorted, sortPhase fs es = .ok sorted ∧ sorted.Perm es := by
  obtain ⟨out, hout⟩ := statAll_ok_of_sizes h
  refine ⟨(out.insertionSort keyLE).map fun p => p.1, ?_, ?_⟩
  · unfold sortPhase
    rw [hout]
    rfl
  · have hp := (List.perm_insertionSort keyLE out).map fun p : Entry × ℕ => p.1
    rw [statAll_map_fst hout] at hp
    exact hp

/-- C9: an entry whose file path ends in `.pb.cc` never reaches the work
set, and is never handed to the sort (hence never dispatched), whatever
the include prefixes, exclude prefixes and user filter are: the
`.pb.cc` test at line 82 is conjoined after the include/exclude
disjunction, so nothing can override it. -/
theorem pbcc_always_filtered (sdkroot : String) (includes excludes : List String)
    (filt : Option String) (fs : String → Option ℕ) (entries : List Entry) :
    ((dedupEntries (applyUserFilter filt (stage1Filter sdkroot includes excludes entries))).all
      fun e => !(strEndsWith e.file ".pb.cc")) = true ∧
    ∀ sorted, sortPhase fs
        (dedupEntries (applyUserFilter filt (stage1Filter sdkroot includes excludes entries))) =
        .ok sorted →
      (sorted.all fun e => !(strEndsWith e.file ".pb.cc")) = true := by
  have hmem : ∀ e ∈ dedupEntries
      (applyUserFilter filt (stage1Filter sdkroot includes excludes entries)),
      strEndsWith e.file ".pb.cc" = false := by
    intro e he
    have h1 := mem_applyUserFilter (mem_dedup he)
    exact keep_no_pbcc (List.mem_filter.mp h1).2
  constructor
  · rw [List.all_eq_true]
    intro e he
    simp [hmem e he]
  · intro sorted hsorted
    rw [List.all_eq_true]
    intro e he
    have hin := (sortPhase_perm hsorted).mem_iff.mp he
    simp [hmem e hin]

/-- C6 counterexample: line 129 divides by the wall-clock duration with
no guard — when the run's wall-clock duration is exactly `0` the
computation fails with a `ZeroDivisionError` (`none`), and the whole run
aborts with that uncaught exception instead of printing the status
line. -/
theorem cpu_zero_wall_cex :
    cpuUsage 5 4 0 = none ∧
    runMain "/r" none 4 (fun _ => some 4) (fun _ => 0) (fun _ => 0) 0
      [Entry.mk "/r/a.cc" "cc"] = .error .zeroDivFail := by
  constructor
  · rfl
  · rfl

/-- C6 (amended): the CPU-usage computation has NO guard: with a nonzero
thread count, a wall-clock duration of exactly `0` raises
`ZeroDivisionError`, and for any nonzero wall-clock duration the value
is `(total / threads) / wallclock × 100` as the spec's formula states. -/
theorem cpuUsage_unguarded (total : ℚ) (threads : ℕ) (wall : ℚ) (ht : threads ≠ 0) :
    (wall = 0 → cpuUsage total threads wall = none) ∧
    (wall ≠ 0 → cpuUsage total threads wall =
      some (total / (threads : ℚ) / wall * 100)) := by
  constructor
  · intro h0
    unfold cpuUsage
    rw [if_neg ht, if_pos h0]
  · intro hw
    unfold cpuUsage
    rw [if_neg ht, if_neg hw]

/-- Witness for `cpuUsage_unguarded` at `total = 5`, `threads = 4`,
`wall = 1`. -/
theorem cpuUsage_unguarded_witness :
    ((1 : ℚ) = 0 → cpuUsage 5 4 1 = none) ∧
    ((1 : ℚ) ≠ 0 → cpuUsage 5 4 1 = some (5 / (4 : ℚ) / 1 * 100)) :=
  cpuUsage_unguarded 5 4 1 (by decide)

/-- C10: file sizes are queried from the filesystem at sort time
(line 93); when some work-set entry's path has no readable file, the
`stat` call raises `FileNotFoundError`, the sort fails, and the whole
run aborts before any analysis subprocess is dispatched — no results and
no summary report are produced. -/
theorem missing_file_aborts (sdkroot : String) (filt : Option String) (threads : ℕ)
    (fs : String → Option ℕ) (toolExit : String → ℕ) (dur : String → ℚ) (wall : ℚ)
    (entries : List Entry)
    (h : ∃ e ∈ workSet sdkroot filt entries, fs e.file = none) :
    ∃ f, runMain sdkroot filt threads fs toolExit dur wall entries =
        .error (.statFail f) ∧ fs f = none ∧
      runFiles (runMain sdkroot filt threads fs toolExit dur wall entries) = none ∧
      runStatus (runMain sdkroot filt threads fs toolExit dur wall entries) = none := by
  obtain ⟨f, herr, hfnone⟩ := statAll_error_of_missing h
  have hsp : sortPhase fs (workSet sdkroot filt entries) = .error f := by
    unfold sortPhase
    rw [herr]
    rfl
  have hrun : runMain sdkroot filt threads fs toolExit dur wall entries =
      .error (.statFail f) := by
    simp only [runMain]
    rw [hsp]
  refine ⟨f, hrun, hfnone, ?_, ?_⟩
  · rw [hrun]
    rfl
  · rw [hrun]
    rfl

/-- Witness for `missing_file_aborts`: a one-entry database whose file
does not exist on the filesystem. -/
theorem missing_file_aborts_witness :
    ∃ f, runMain "/r" none 1 (fun _ => none) (fun _ => 0) (fun _ => 0) 1
        [Entry.mk "/r/a.cc" "cc"] = .error (.statFail f) ∧
      (fun _ : String => (none : Option ℕ)) f = none ∧
      runFiles (runMain "/r" none 1 (fun _ => none) (fun _ => 0) (fun _ => 0) 1
        [Entry.mk "/r/a.cc" "cc"]) = none ∧
      runStatus (runMain "/r" none 1 (fun _ => none) (fun _ => 0) (fun _ => 0) 1
        [Entry.mk "/r/a.cc" "cc"]) = none :=
  missing_file_aborts "/r" none 1 (fun _ => none) (fun _ => 0) (fun _ => 0) 1
    [Entry.mk "/r/a.cc" "cc"] (by decide)

theorem timingRelPaths_none {root : String} {results : List (String × ℚ × ℕ)}
    (h : ∃ r ∈ results, relTo root r.1 = none) :
    timingRelPaths root results = none := by
  induction results with
  | nil =>
    obtain ⟨r, hr, -⟩ := h
    exact absurd hr (List.not_mem_nil r)
  | cons r rest ih =>
    obtain ⟨x, hx, hxn⟩ := h
    simp only [timingRelPaths]
    cases hrt : relTo root r.1 with
    | none => rfl
    | some rel =>
      rcases List.mem_cons.mp hx with hxr | hxr
      · subst hxr
        rw [hrt] at hxn
        exact Option.noConfusion hxn
      · rw [ih ⟨x, hxr, hxn⟩]
        rfl

/-- The number of failing entries: those whose analysis subprocess
exited nonzero (each contributes error count `1`, line 35). -/
def failing (toolExit : String → ℕ) (es : List Entry) : ℕ :=
  es.countP fun e => decide (toolExit e.file ≠ 0)

theorem sum_ite_eq_countP (toolExit : String → ℕ) (l : List Entry) :
    (l.map fun e => if toolExit e.file ≠ 0 then (1 : ℕ) else 0).sum =
      failing toolExit l := by
  unfold failing
  induction l with
  | nil => rfl
  | cons x xs ih =>
    simp only [List.map_cons, List.sum_cons, List.countP_cons, ih]
    by_cases h : toolExit x.file ≠ 0
    · simp [h, Nat.add_comm]
    · simp [h]

/-- C4 counterexample: an entry whose absolute path is NOT under the
discovered root is neither rejected nor aborts the run — it survives
filtering (which uses absolute-path prefix tests, lines 76-86, and never
computes a relative path), is dispatched, and appears in the completed
report; no `PathError` exists anywhere in the run. -/
theorem no_path_error_cex :
    runFiles (runMain "/repo" none 1 (fun _ => some 4) (fun _ => 0) (fun _ => 0) 1
      [Entry.mk "/elsewhere/a.cc" "cc"]) = some ["/elsewhere/a.cc"] ∧
    relTo "/repo" "/elsewhere/a.cc" = none := by
  constructor
  · rfl
  · decide

/-- C4 (amended): entries whose absolute paths are not under the root
cause no failure during filtering, scheduling or dispatch: whenever
every work-set file stats successfully and the final divisions are
defined, the run completes with a report covering exactly the work set,
wherever the files lie relative to the root.  The only root-relative
computation is the optional timing table (lines 121-127), which fails —
with `ValueError`, after all analyses ran — when a reported file is not
under the root. -/
theorem no_path_check_in_run (sdkroot : String) (filt : Option String) (threads : ℕ)
    (fs : String → Option ℕ) (toolExit : String → ℕ) (dur : String → ℚ) (wall : ℚ)
    (entries : List Entry)
    (hsz : ∀ e ∈ workSet sdkroot filt entries, (fs e.file).isSome = true)
    (ht : threads ≠ 0) (hw : wall ≠ 0) :
    ∃ rep, runMain sdkroot filt threads fs toolExit dur wall entries = .ok rep ∧
      (rep.results.map fun r => r.1).Perm
        ((workSet sdkroot filt entries).map fun e => e.file) ∧
      ((∃ e ∈ workSet sdkroot filt entries, relTo sdkroot e.file = none) →
        timingRelPaths sdkroot rep.results = none) := by
  obtain ⟨sorted, hsort, hperm⟩ := sortPhase_ok_of_sizes hsz
  have hcpu : ∀ T : ℚ, cpuUsage T threads wall =
      some (T / (threads : ℚ) / wall * 100) := by
    intro T
    unfold cpuUsage
    rw [if_neg ht, if_neg hw]
  simp only [runMain, hsort, hcpu]
  refine ⟨_, rfl, ?_, ?_⟩
  · dsimp only
    rw [List.map_map]
    exact hperm.map fun e => e.file
  · intro hex
    obtain ⟨e, hews, hrel⟩ := hex
    dsimp only
    apply timingRelPaths_none
    refine ⟨(e.file, dur e.file, if toolExit e.file ≠ 0 then 1 else 0), ?_, hrel⟩
    exact List.mem_map_of_mem _ (hperm.mem_iff.mpr hews)

/-- Witness for `no_path_check_in_run`: a run whose sole entry lives
outside the root completes normally. -/
theorem no_path_check_in_run_witness :
    ∃ rep, runMain "/repo" none 1 (fun _ => some 4) (fun _ => 0) (fun _ => 0) 1
        [Entry.mk "/elsewhere/a.cc" "cc"] = .ok rep ∧
      (rep.results.map fun r => r.1).Perm
        ((workSet "/repo" none [Entry.mk "/elsewhere/a.cc" "cc"]).map fun e => e.file) ∧
      ((∃ e ∈ workSet "/repo" none [Entry.mk "/elsewhere/a.cc" "cc"],
          relTo "/repo" e.file = none) →
        timingRelPaths "/repo" rep.results = none) :=
  no_path_check_in_run "/repo" none 1 (fun _ => some 4) (fun _ => 0) (fun _ => 0) 1
    [Entry.mk "/elsewhere/a.cc" "cc"] (by decide) (by decide) (by decide)

/-- C7: a completed run reports, when no entry failed, the
`Done without error` status line and exit status `0`; otherwise the
status line `Done with errors in X/Y files` with `X` the number of
failing entries and `Y` the size of the work set, and exit status `1`
(lines 132-137; each failing entry contributes exactly one error, so the
summed error count IS the failing-entry count). -/
theorem final_report_correct (sdkroot : String) (filt : Option String) (threads : ℕ)
    (fs : String → Option ℕ) (toolExit : String → ℕ) (dur : String → ℚ) (wall : ℚ)
    (entries : List Entry)
    (hsz : ∀ e ∈ workSet sdkroot filt entries, (fs e.file).isSome = true)
    (ht : threads ≠ 0) (hw : wall ≠ 0) :
    ∃ rep, runMain sdkroot filt threads fs toolExit dur wall entries = .ok rep ∧
      rep.filteredCount = (workSet sdkroot filt entries).length ∧
      rep.errors = failing toolExit (workSet sdkroot filt entries) ∧
      (rep.errors = 0 → rep.statusLine = "Done without error" ∧ rep.exitCode = 0) ∧
      (rep.errors ≠ 0 →
        rep.statusLine = "Done with errors in " ++ toString rep.errors ++ "/" ++
          toString rep.filteredCount ++ " files" ∧ rep.exitCode = 1) := by
  obtain ⟨sorted, hsort, hperm⟩ := sortPhase_ok_of_sizes hsz
  have hcpu : ∀ T : ℚ, cpuUsage T threads wall =
      some (T / (threads : ℚ) / wall * 100) := by
    intro T
    unfold cpuUsage
    rw [if_neg ht, if_neg hw]
  have herr : ((sorted.map fun e =>
      (e.file, dur e.file, if toolExit e.file ≠ 0 then (1 : ℕ) else 0)).map
        fun r => r.2.2).sum = failing toolExit (workSet sdkroot filt entries) := by
    rw [List.map_map]
    rw [show ((fun r : String × ℚ × ℕ => r.2.2) ∘ fun e : Entry =>
        (e.file, dur e.file, if toolExit e.file ≠ 0 then (1 : ℕ) else 0)) =
        fun e : Entry => if toolExit e.file ≠ 0 then (1 : ℕ) else 0 from rfl]
    rw [sum_ite_eq_countP toolExit sorted]
    unfold failing
    exact hperm.countP_eq _
  simp only [runMain, hsort, hcpu]
  refine ⟨_, rfl, ?_, ?_, ?_, ?_⟩
  · dsimp only
    exact hperm.length_eq
  · dsimp only
    exact herr
  · intro h0
    dsimp only at h0 ⊢
    rw [h0]
    simp
  · intro hne
    dsimp only at hne ⊢
    split_ifs with hcond
    · exact absurd (eq_of_beq hcond) hne
    · exact ⟨rfl, rfl⟩

/-- Witness for `final_report_correct`: two entries, one failing. -/
theorem final_report_correct_witness :
    ∃ rep, runMain "/r" none 1 (fun _ => some 1)
        (fun f => if f = "/r/a.cc" then 1 else 0) (fun _ => 0) 1
        [Entry.mk "/r/a.cc" "c1", Entry.mk "/r/b.cc" "c2"] = .ok rep ∧
      rep.filteredCount =
        (workSet "/r" none [Entry.mk "/r/a.cc" "c1", Entry.mk "/r/b.cc" "c2"]).length ∧
      rep.errors = failing (fun f => if f = "/r/a.cc" then 1 else 0)
        (workSet "/r" none [Entry.mk "/r/a.cc" "c1", Entry.mk "/r/b.cc" "c2"]) ∧
      (rep.errors = 0 → rep.statusLine = "Done without error" ∧ rep.exitCode = 0) ∧
      (rep.errors ≠ 0 →
        rep.statusLine = "Done with errors in " ++ toString rep.errors ++ "/" ++
          toString rep.filteredCount ++ " files" ∧ rep.exitCode = 1) :=
  final_report_correct "/r" none 1 (fun _ => some 1)
    (fun f => if f = "/r/a.cc" then 1 else 0) (fun _ => 0) 1
    [Entry.mk "/r/a.cc" "c1", Entry.mk "/r/b.cc" "c2"] (by decide) (by decide) (by decide)
